import Mathlib

/-!
Verification of the cooccurrence / embedding solver (`solvers.py`) against its
specification.  The Python source is shallowly embedded: float32 values are
modelled as exact rationals, numpy arrays as lists, and the external numpy /
struct / MPI collaborators as explicit function parameters or pure state.
-/

/-- Record size of the binary cooccurrence format (`NBYTES = 12` in the source:
two uint32 fields and one float32 field). -/
def NBYTES : Nat := 12

/-- One cooccurrence record `(row, col, weight)` as stored in the binary file.
The float32 weight is modelled as an exact rational. -/
structure CoocRec where
  row : Nat
  col : Nat
  weight : ℚ
deriving DecidableEq

/-- Swapping row and col of a record, as done for the `row < col` records during
symmetrization (`rowdata[ncooc:], coldata[ncooc:] = col[sym], row[sym]`). -/
def swapRec (r : CoocRec) : CoocRec :=
  ⟨r.col, r.row, r.weight⟩

/-- The record-expansion step of `symcooc`: the output arrays hold the records
read from the worker's range followed by the `row < col` records with row and
col swapped (`values[ncooc:], rowdata[ncooc:], coldata[ncooc:] =
val[sym], col[sym], row[sym]` where `sym = row < col`). -/
def symcoocRecords (recs : List CoocRec) : List CoocRec :=
  recs ++ (recs.filter (fun r => r.row < r.col)).map swapRec

/-- Record offset of worker `rank` out of `size` into a cooccurrence file of
`flength` bytes: `offset = int(flength*rank/size / NBYTES)`.  The Python
expression divides exactly (true division) and truncates once at the end, which
for nonnegative operands is the floor `flength*rank / (size*NBYTES)`; nested
natural-number division computes the same value. -/
def workerOffset (flength size rank : Nat) : Nat :=
  flength * rank / size / NBYTES

/-- Number of records read by worker `rank`:
`ncooc = int(flength*(rank+1)/size / NBYTES) - offset`. -/
def workerCount (flength size rank : Nat) : Nat :=
  workerOffset flength size (rank + 1) - workerOffset flength size rank

/-- The records worker `rank` reads: `symcooc` seeks to byte `NBYTES*offset`
and `splitcooc` then reads `ncooc` consecutive records. -/
def workerRecords (recs : List CoocRec) (flength size rank : Nat) : List CoocRec :=
  (recs.drop (workerOffset flength size rank)).take (workerCount flength size rank)

/-- The symmetrized output `symcooc` produces on worker `rank`: the worker's
range of records, expanded. -/
def symcoocWorker (recs : List CoocRec) (flength size rank : Nat) : List CoocRec :=
  symcoocRecords (workerRecords recs flength size rank)

/-- The loop of `splitcooc`: `for cooc in range(ncooc)` it reads `NBYTES` bytes,
unpacks them with `struct.unpack(FMT, ...)` (the external struct collaborator,
abstracted as the function `unpack` from the 12 bytes to `(i, j, xij)`),
appends `i` to the `row` deque and `j` to the `col` deque, and yields `xij`.
The result collects, in order: the yielded weights, the queued rows, the queued
cols, and the remaining bytes of the file. -/
def splitcoocLoop (unpack : List Nat → Nat × Nat × ℚ) :
    Nat → List Nat → List ℚ × List Nat × List Nat × List Nat
  | 0, bytes => ([], [], [], bytes)
  | n + 1, bytes =>
    let r := unpack (bytes.take NBYTES)
    let rest := splitcoocLoop unpack n (bytes.drop NBYTES)
    (r.2.2 :: rest.1, r.1 :: rest.2.1, r.2.1 :: rest.2.2.1, rest.2.2.2)

/-- The generator `splitcooc(f, ncooc)`: after the read loop it yields the `row`
deque front-to-back and then the `col` deque front-to-back
(`for idx in [row, col]: ... yield idx.popleft()`).  The first component is the
sequence of yielded values (weights tagged `inl`, indices tagged `inr`), the
second the unread remainder of the file. -/
def splitcooc (unpack : List Nat → Nat × Nat × ℚ) (bytes : List Nat) (ncooc : Nat) :
    List (ℚ ⊕ Nat) × List Nat :=
  let s := splitcoocLoop unpack ncooc bytes
  (s.1.map Sum.inl ++ s.2.1.map Sum.inr ++ s.2.2.1.map Sum.inr, s.2.2.2)

/-- Python list slicing `l[s:]` for a possibly negative start index `s`:
a negative start counts from the end, clamped at 0. -/
def pySliceFrom (l : List α) (s : Int) : List α :=
  if s < 0 then l.drop ((l.length + s).toNat) else l.drop s.toNat

/-- `recip_dist = np.fromiter((1.0/d for d in reversed(range(1, window_size+1))),
FLOAT, window_size)`, i.e. `[1/W, 1/(W-1), ..., 1/1]`. -/
def recipDist (window_size : Nat) : List ℚ :=
  ((List.range' 1 window_size).reverse).map (fun d : Nat => (1 : ℚ) / (d : ℚ))

/-- Body of `doc2cooc`'s outer loop at position `i` with window start `start`:
if `indices[i]` is not the sentinel `V`, zip `recip_dist[start-i:]` with
`indices[start:i]`, and for every non-sentinel partner emit the pair in
canonical order (`if index < other: (index, other) else (other, index)`) with
the reciprocal-distance weight.  The source appends to three parallel lists
`row`, `col`, `val`; the embedding emits the corresponding triples in the same
order. -/
def doc2coocEmit (indices : List Nat) (recip_dist : List ℚ) (V start i : Nat) :
    List (Nat × Nat × ℚ) :=
  if indices.getD i V ≠ V then
    (((pySliceFrom recip_dist ((start : Int) - (i : Int))).zip
        ((indices.drop start).take (i - start))).filterMap (fun q =>
      if q.2 ≠ V then
        some (if indices.getD i V < q.2 then (indices.getD i V, q.2, q.1)
              else (q.2, indices.getD i V, q.1))
      else none))
  else []

/-- `doc2cooc(indices, recip_dist, window_size, V)`: iterate over the positions
of `indices` keeping the running window start, which advances by
`start += i >= window_size` after each position. -/
def doc2cooc (indices : List Nat) (recip_dist : List ℚ) (window_size V : Nat) :
    List (Nat × Nat × ℚ) :=
  ((List.range indices.length).foldl (fun st i =>
      (st.1 + (if window_size ≤ i then 1 else 0),
       st.2 ++ doc2coocEmit indices recip_dist V st.1 i))
    ((0 : Nat), ([] : List (Nat × Nat × ℚ)))).2

/-- The claim's description of the window counting: each non-sentinel position
`i` is paired with the non-sentinel positions among the `window_size` positions
immediately preceding it (`max(0, i-window_size) .. i-1`), with weight the
reciprocal `1/(i-j)` of the position distance, emitted canonically as
`(min index, max index)`. -/
def doc2coocClaim (indices : List Nat) (window_size V : Nat) :
    List (Nat × Nat × ℚ) :=
  (List.range indices.length).flatMap (fun i =>
    if indices.getD i V ≠ V then
      (List.range' (i - window_size) (min i window_size)).filterMap (fun j =>
        if indices.getD j V ≠ V then
          some (if indices.getD i V < indices.getD j V then
                  (indices.getD i V, indices.getD j V, (1 : ℚ) / ((i - j : Nat) : ℚ))
                else (indices.getD j V, indices.getD i V, (1 : ℚ) / ((i - j : Nat) : ℚ)))
        else none)
    else [])

/-- The tally `counts[(i, j)] += v` that `cooc_count` accumulates over the
triples produced by `doc2cooc`: total weight of the pair `(a, b)`. -/
def tallyWeight (l : List (Nat × Nat × ℚ)) (a b : Nat) : ℚ :=
  ((l.filter (fun t => t.1 = a ∧ t.2.1 = b)).map (fun t => t.2.2)).sum

/-- The weight pipeline of `GloVe._load_cooc_data` on the symmetrized weight
array: capture `logcooc = np.log(data)` first, then in place `data /= xmax`,
`data[data < 1.0] **= alpha`, `data[~(data < 1.0)] = 1.0`.  The natural
logarithm and the real power `** alpha` are numpy collaborators, abstracted as
the functions `logf` and `powa`.  Returns `(weights, logcooc)`. -/
def GloVe.load_weights (logf powa : ℚ → ℚ) (xmax : ℚ) (data : List ℚ) :
    List ℚ × List ℚ :=
  let logcooc := data.map logf
  let scaled := data.map (fun x => x / xmax)
  let weights := scaled.map (fun x => if x < 1 then powa x else 1)
  (weights, logcooc)

/-- Dot product `np.dot(a.T, b)` of two parameter rows. -/
def dotQ (a b : List ℚ) : ℚ :=
  ((a.zip b).map (fun p => p.1 * p.2)).sum

/-- One worker's shard of the symmetrized cooccurrence data: the four parallel
arrays `row`, `col`, `weights`, `logcooc`. -/
structure CoocShard where
  row : List Nat
  col : List Nat
  weights : List ℚ
  logcooc : List ℚ
deriving DecidableEq

/-- `GloVe.predict(i, j, wv, cv, wb, cb) = np.dot(wv[i].T, cv[j]) + wb[i] + cb[j]`. -/
def GloVe.predict (wv cv : List (List ℚ)) (wb cb : List ℚ) (i j : Nat) : ℚ :=
  dotQ (wv.getD i []) (cv.getD j []) + wb.getD i 0 + cb.getD j 0

/-- The un-normalized local loss of `GloVe.loss` on one shard:
`errors = predict(row, col) - logcooc` elementwise, then
`np.inner(weights*errors, errors)`. -/
def GloVe.lossLocal (wv cv : List (List ℚ)) (wb cb : List ℚ) (sh : CoocShard) : ℚ :=
  (((sh.row.zip sh.col).zip (sh.weights.zip sh.logcooc)).map (fun p =>
    let e := GloVe.predict wv cv wb cb p.1.1 p.1.2 - p.2.2
    p.2.1 * e * e)).sum

/-- `ncooc = data.shape[0]`, the local record count of a shard. -/
def CoocShard.ncooc (sh : CoocShard) : Nat :=
  sh.weights.length

/-- The value of `GloVe.loss()`: with one worker `loss/ncooc`; with several,
`ncooc = allreduce(ncooc)` followed by `allreduce(loss/ncooc)`, i.e. the sum of
the local losses divided by the global record count.  The formula below covers
both cases (a single shard is the single-worker case). -/
def GloVe.loss (wv cv : List (List ℚ)) (wb cb : List ℚ) (shards : List CoocShard) : ℚ :=
  (shards.map (GloVe.lossLocal wv cv wb cb)).sum /
    ((shards.map CoocShard.ncooc).sum : ℚ)

/-- `GloVe.embeddings() = sum(self._params[:2]) / 2.0`, the elementwise average
of the word and context vectors. -/
def GloVe.embeddings (wv cv : List (List ℚ)) : List (List ℚ) :=
  (wv.zip cv).map (fun p => (p.1.zip p.2).map (fun q => (q.1 + q.2) / 2))

/-- Squared euclidean distance of two parameter rows. -/
def rowSqDist (a b : List ℚ) : ℚ :=
  ((a.zip b).map (fun q => (q.1 - q.2) ^ 2)).sum

/-- Squared Frobenius norm `norm(a - b)**2` of the elementwise difference of two
matrices (the square of the value the external `norm` collaborator returns). -/
def frobSq (a b : List (List ℚ)) : ℚ :=
  ((a.zip b).map (fun p => rowSqDist p.1 p.2)).sum

/-- `RegularizedGloVe._word_cooc_counts(V)`: per worker
`Counter(self.row) + Counter(self.col)` materialized over `range(V)`, then
summed across workers by `comm.Reduce`. -/
def RegularizedGloVe.word_cooc_counts (shards : List CoocShard) (V : Nat) : List Nat :=
  (List.range V).map (fun w =>
    (shards.map (fun sh => sh.row.count w + sh.col.count w)).sum)

/-- The regularization term `rloss()` computed on the leader:
`reg/src.shape[0] * norm(self.embeddings() - src)**2`. -/
def RegularizedGloVe.rloss (wv cv src : List (List ℚ)) (reg : ℚ) : ℚ :=
  reg / (src.length : ℚ) * frobSq (GloVe.embeddings wv cv) src

/-- The total loss observed by worker `rank` after the constructor rebinds
`self.loss`: the leader computes `oloss() + rloss()` and broadcasts `rloss()`;
every other worker computes `oloss() + bcast(None, root=0)`, receiving the
leader's `rloss()` value computed from the same shared parameters. -/
def RegularizedGloVe.lossAt (rank : Nat) (wv cv : List (List ℚ)) (wb cb : List ℚ)
    (src : List (List ℚ)) (reg : ℚ) (shards : List CoocShard) : ℚ :=
  if rank = 0 then
    GloVe.loss wv cv wb cb shards + RegularizedGloVe.rloss wv cv src reg
  else
    GloVe.loss wv cv wb cb shards + RegularizedGloVe.rloss wv cv src reg

/-- The penalty exactly as claim C1 states it:
`reg/V * Σ_w ||embedding(w) - reference(w)||² / degree(w)` with `degree(w)` the
count of cooccurrence records touching `w`. -/
def claimRegPenalty (wv cv src : List (List ℚ)) (reg : ℚ) (shards : List CoocShard) : ℚ :=
  reg / (src.length : ℚ) *
    ((List.range src.length).map (fun w =>
      rowSqDist ((GloVe.embeddings wv cv).getD w []) (src.getD w []) /
        ((RegularizedGloVe.word_cooc_counts shards src.length).getD w 0 : ℚ))).sum

/-- The four parameter arrays of the plain GloVe variant. -/
structure GloVeParams where
  wv : List (List ℚ)
  cv : List (List ℚ)
  wb : List ℚ
  cb : List ℚ
deriving DecidableEq

/-- One iteration of the loop body of `GloVe.epoch` for the record
`(i, j, weight, logcooc)`.  `wv[i]` and `cv[j]` are numpy row views, so the
in-place subtractions write back into the matrices; `wb[i]` and `cb[j]` are
scalars copied out of the one-dimensional bias arrays, so `wbi -= coef` and
`cbj -= coef` rebind the locals and the bias arrays themselves are left
unchanged.  `upd = coef*cvj` is computed before `cvj -= coef*wvi`, so `wvi`
is updated with the pre-update `cv[j]`, and `cvj` with the pre-update `wv[i]`.
Returns the new parameters and the loss contribution `werror*error`. -/
def GloVe.epochStep (eta : ℚ) (p : GloVeParams) (i j : Nat)
    (weight logcooc : ℚ) : GloVeParams × ℚ :=
  let etax2 := 2 * eta
  let wvi := p.wv.getD i []
  let cvj := p.cv.getD j []
  let wbi := p.wb.getD i 0
  let cbj := p.cb.getD j 0
  let error := dotQ wvi cvj + wbi + cbj - logcooc
  let werror := weight * error
  let coef := werror * etax2
  let upd := cvj.map (fun x => coef * x)
  let cvj2 := (cvj.zip (wvi.map (fun x => coef * x))).map (fun q => q.1 - q.2)
  let wvi2 := (wvi.zip upd).map (fun q => q.1 - q.2)
  (⟨p.wv.set i wvi2, p.cv.set j cvj2, p.wb, p.cb⟩, werror * error)

/-- `align_params(params, srcvocab, tgtvocab, mean_fill)`.  The first statement
of the loop body is `shape[0] = len(tgtvocab)` where `shape = param.shape` is a
Python tuple; tuples do not support item assignment, so the call raises
`TypeError` on the first iteration whenever `params` is nonempty (with an empty
`params` the loop body never runs and the empty output list is returned). -/
def align_params (params : List (List (List ℚ))) (srcvocab tgtvocab : List String)
    (mean_fill : Bool) : Except String (List (List (List ℚ))) :=
  match params with
  | [] => Except.ok []
  | _ :: _ => Except.error "TypeError: tuple does not support item assignment"

/-- Process-wide state of the `SharedArrayManager` model.  `shared` is the
class attribute `SharedArrayManager._shared` — a single list shared by every
instance in the process, to which the leader's `create` appends the segment
name.  `deletes` records the sequence of `sa.delete` calls issued so far. -/
structure SAMState where
  shared : List Nat
  deletes : List Nat
deriving DecidableEq

/-- State at process start: no segment created, no delete issued. -/
def SAMState.init : SAMState := ⟨[], []⟩

/-- Leader branch of `create` in multi-worker mode: `sa.create(filename, ...)`
followed by `self._shared.append(comm.bcast(filename, root=0))`. -/
def SAM.create (st : SAMState) (filename : Nat) : SAMState :=
  ⟨st.shared ++ [filename], st.deletes⟩

/-- `__exit__`: `for array in self._shared: sa.delete(array)`.  Because
`_shared` is a class attribute it holds the names appended by every instance in
the process, and `__exit__` does not clear it. -/
def SAM.exitMgr (st : SAMState) : SAMState :=
  ⟨st.shared, st.deletes ++ st.shared⟩

/-- Two manager instances used as context managers, one after the other, in one
process: the first creates segment `1` and exits, the second creates segment
`2` and exits. -/
def SAM.twoManagerScenario : SAMState :=
  SAM.exitMgr (SAM.create (SAM.exitMgr (SAM.create SAMState.init 1)) 2)

/-- `np.random.shuffle` modelled as applying a permutation of positions that
the freshly seeded generator determines from the array length alone:
`applyPerm p l` places `l[p[k]]` at position `k`. -/
def applyPerm (p : List Nat) (l : List α) : List α :=
  p.filterMap (fun i => l.get? i)

/-- `GloVe._shuffle_cooc_data(seed)`: `np.random.seed(seed)` is called before
each of the four `np.random.shuffle` calls, so every array is shuffled by the
generator in the same freshly seeded state; `gen seed n` is the position
permutation that state produces for an array of length `n`. -/
def GloVe.shuffle_cooc_data (gen : Nat → Nat → List Nat) (seed : Nat)
    (sh : CoocShard) : CoocShard :=
  ⟨applyPerm (gen seed sh.row.length) sh.row,
   applyPerm (gen seed sh.col.length) sh.col,
   applyPerm (gen seed sh.weights.length) sh.weights,
   applyPerm (gen seed sh.logcooc.length) sh.logcooc⟩

theorem swapRec_involutive : Function.Involutive swapRec :=
  fun _ => rfl

theorem swapRec_strict_not_mem_upper {recs : List CoocRec}
    (hupper : ∀ r ∈ recs, r.row ≤ r.col) {t : CoocRec} (ht : t.row < t.col) :
    swapRec t ∉ recs := by
  intro hmem
  have := hupper (swapRec t) hmem
  simp only [swapRec] at this
  omega

/-- C5: on an upper-triangular input, the output of `symcooc` contains every
`row < col` record together with its swapped copy (each with the input's
multiplicity), contains each diagonal record exactly as often as the input
does, and contains nothing besides input records and swaps of strict input
records. -/
theorem symcooc_symmetrization (recs : List CoocRec)
    (hupper : ∀ r ∈ recs, r.row ≤ r.col) :
    (∀ t : CoocRec, t.row < t.col →
        (symcoocRecords recs).count t = recs.count t ∧
        (symcoocRecords recs).count (swapRec t) = recs.count t) ∧
    (∀ t : CoocRec, t.row = t.col →
        (symcoocRecords recs).count t = recs.count t) ∧
    (∀ t ∈ symcoocRecords recs,
        t ∈ recs ∨ (swapRec t ∈ recs ∧ (swapRec t).row < (swapRec t).col)) := by
  refine ⟨?_, ?_, ?_⟩
  · intro t ht
    constructor
    · rw [symcoocRecords, List.count_append]
      have h1 : ((recs.filter (fun r => r.row < r.col)).map swapRec).count t = 0 := by
        apply List.count_eq_zero_of_not_mem
        intro hmem
        obtain ⟨s, hs, hst⟩ := List.mem_map.mp hmem
        have hsrec := (List.mem_filter.mp hs).1
        have hslt : s.row < s.col := by
          have := (List.mem_filter.mp hs).2
          simpa using this
        have : s.row = t.col ∧ s.col = t.row := by
          cases s; cases t
          simp only [swapRec, CoocRec.mk.injEq] at hst
          simp_all
        omega
      omega
    · rw [symcoocRecords, List.count_append]
      have h0 : recs.count (swapRec t) = 0 :=
        List.count_eq_zero_of_not_mem (swapRec_strict_not_mem_upper hupper ht)
      have h1 : ((recs.filter (fun r => r.row < r.col)).map swapRec).count (swapRec t)
          = (recs.filter (fun r => r.row < r.col)).count t :=
        List.count_map_of_injective _ swapRec swapRec_involutive.injective t
      have h2 : (recs.filter (fun r => r.row < r.col)).count t = recs.count t :=
        List.count_filter (by simpa using ht)
      omega
  · intro t ht
    rw [symcoocRecords, List.count_append]
    have h1 : ((recs.filter (fun r => r.row < r.col)).map swapRec).count t = 0 := by
      apply List.count_eq_zero_of_not_mem
      intro hmem
      obtain ⟨s, hs, hst⟩ := List.mem_map.mp hmem
      have hslt : s.row < s.col := by
        have := (List.mem_filter.mp hs).2
        simpa using this
      have : s.row = t.col ∧ s.col = t.row := by
        cases s; cases t
        simp only [swapRec, CoocRec.mk.injEq] at hst
        simp_all
      omega
    omega
  · intro t hmem
    rcases List.mem_append.mp hmem with h | h
    · exact Or.inl h
    · obtain ⟨s, hs, hst⟩ := List.mem_map.mp h
      have hsrec := (List.mem_filter.mp hs).1
      have hslt : s.row < s.col := by
        have := (List.mem_filter.mp hs).2
        simpa using this
      refine Or.inr ⟨?_, ?_⟩
      · rw [← hst, swapRec_involutive s]
        exact hsrec
      · rw [← hst, swapRec_involutive s]
        exact hslt

/-- Witness for C5 on the spec's example `[(0,1,2.0),(2,2,5.0)]`: the output
contains both `(0,1,2.0)` and `(1,0,2.0)` and exactly one occurrence of
`(2,2,5.0)`. -/
theorem symcooc_symmetrization_witness :
    (symcoocRecords [⟨0, 1, 2⟩, ⟨2, 2, 5⟩]).count ⟨0, 1, 2⟩ = 1 ∧
    (symcoocRecords [⟨0, 1, 2⟩, ⟨2, 2, 5⟩]).count ⟨1, 0, 2⟩ = 1 ∧
    (symcoocRecords [⟨0, 1, 2⟩, ⟨2, 2, 5⟩]).count ⟨2, 2, 5⟩ = 1 := by
  have h := symcooc_symmetrization [⟨0, 1, 2⟩, ⟨2, 2, 5⟩] (by decide)
  refine ⟨?_, ?_, ?_⟩
  · rw [(h.1 ⟨0, 1, 2⟩ (by decide)).1]
    decide
  · have h2 := (h.1 ⟨0, 1, 2⟩ (by decide)).2
    simp only [swapRec] at h2
    rw [h2]
    decide
  · rw [h.2.1 ⟨2, 2, 5⟩ rfl]
    decide

theorem flatMap_slices (N : Nat) :
    ∀ (o : Nat → Nat) (l : List CoocRec),
      (∀ r, o r ≤ o (r + 1)) → o 0 = 0 → o N = l.length →
      (List.range N).flatMap (fun r => (l.drop (o r)).take (o (r + 1) - o r)) = l := by
  induction N with
  | zero =>
    intro o l hmono h0 hN
    simp only [List.range_zero, List.flatMap_nil]
    have : l.length = 0 := by omega
    exact (List.eq_nil_of_length_eq_zero this).symm
  | succ N ih =>
    intro o l hmono h0 hN
    have hm : Monotone o := monotone_nat_of_le_succ hmono
    have ho1 : o 1 ≤ l.length := hN ▸ hm (by omega)
    rw [List.range_succ_eq_map, List.flatMap_cons, List.flatMap_map]
    have hfun : (fun r => ((l.drop (o (Nat.succ r))).take (o (Nat.succ r + 1) - o (Nat.succ r))))
        = (fun r => (((l.drop (o 1)).drop ((o (r + 1) - o 1))).take
            ((o (r + 1 + 1) - o 1) - (o (r + 1) - o 1)))) := by
      funext r
      simp only [Nat.succ_eq_add_one]
      have h1 : o 1 ≤ o (r + 1) := hm (by omega)
      have h2 : o (r + 1) ≤ o (r + 1 + 1) := hmono (r + 1)
      rw [List.drop_drop]
      have e1 : o 1 + (o (r + 1) - o 1) = o (r + 1) := by omega
      have e2 : o (r + 1 + 1) - o 1 - (o (r + 1) - o 1) = o (r + 1 + 1) - o (r + 1) := by
        omega
      rw [e1, e2]
    have ih' := ih (fun r => o (r + 1) - o 1) (l.drop (o 1))
      (fun r => by
        show o (r + 1) - o 1 ≤ o (r + 1 + 1) - o 1
        have := hmono (r + 1); omega)
      (by show o 1 - o 1 = 0; omega)
      (by
        show o (N + 1) - o 1 = (l.drop (o 1)).length
        rw [List.length_drop]; omega)
    rw [hfun, ih', h0]
    simp only [List.drop_zero, Nat.sub_zero]
    exact List.take_append_drop (o 1) l

theorem symcoocRecords_append (a b : List CoocRec) :
    ((symcoocRecords (a ++ b) : List CoocRec) : Multiset CoocRec) =
      ((symcoocRecords a : List CoocRec) : Multiset CoocRec) +
        ((symcoocRecords b : List CoocRec) : Multiset CoocRec) := by
  simp only [symcoocRecords, List.filter_append, List.map_append, ← Multiset.coe_add]
  abel

theorem symcoocRecords_flatten (ls : List (List CoocRec)) :
    ((ls.flatMap symcoocRecords : List CoocRec) : Multiset CoocRec) =
      ((symcoocRecords ls.flatten : List CoocRec) : Multiset CoocRec) := by
  induction ls with
  | nil => rfl
  | cons a ls ih =>
    rw [List.flatMap_cons, List.flatten_cons, symcoocRecords_append,
      ← Multiset.coe_add, ih]

theorem workerOffset_zero (L N : Nat) : workerOffset L N 0 = 0 := by
  simp [workerOffset]

theorem workerOffset_mono (L N : Nat) : Monotone (workerOffset L N) := by
  apply monotone_nat_of_le_succ
  intro r
  unfold workerOffset
  apply Nat.div_le_div_right
  apply Nat.div_le_div_right
  exact Nat.mul_le_mul_left L (by omega)

theorem workerOffset_last (L N : Nat) (hN : 0 < N) :
    workerOffset L N N = L / NBYTES := by
  unfold workerOffset
  rw [Nat.mul_div_cancel L hN]

/-- C4: for a file of `L` bytes whose whole records are `recs` (so
`recs.length * NBYTES ≤ L < (recs.length + 1) * NBYTES`) and any group size
`N ≥ 1`, the per-worker record ranges are pairwise disjoint (each range ends no
later than any later range starts), together they cover every whole record
exactly once, and the concatenation of all workers' symmetrized outputs is the
same multiset as the single-worker output. -/
theorem symcooc_partition_equivalence
    (recs : List CoocRec) (L N : Nat) (hN : 1 ≤ N)
    (hlo : recs.length * NBYTES ≤ L) (hhi : L < recs.length * NBYTES + NBYTES) :
    (∀ r s, r < s →
        workerOffset L N r + workerCount L N r ≤ workerOffset L N s) ∧
    (List.range N).flatMap (fun r => workerRecords recs L N r) = recs ∧
    (((List.range N).flatMap (fun r => symcoocWorker recs L N r) :
        List CoocRec) : Multiset CoocRec) =
      ((symcoocWorker recs L 1 0 : List CoocRec) : Multiset CoocRec) := by
  have hrec : L / NBYTES = recs.length := by
    unfold NBYTES at *
    omega
  have hmono := workerOffset_mono L N
  have hlast : workerOffset L N N = recs.length := by
    rw [workerOffset_last L N (by omega), hrec]
  have hcover : (List.range N).flatMap (fun r => workerRecords recs L N r) = recs := by
    have := flatMap_slices N (workerOffset L N) recs
      (fun r => hmono (by omega)) (workerOffset_zero L N) hlast
    simpa [workerRecords, workerCount] using this
  refine ⟨?_, hcover, ?_⟩
  · intro r s hrs
    have h1 : workerOffset L N r ≤ workerOffset L N (r + 1) := hmono (by omega)
    have h2 : workerOffset L N (r + 1) ≤ workerOffset L N s := hmono hrs
    unfold workerCount
    omega
  · have hsingle : workerRecords recs L 1 0 = recs := by
      unfold workerRecords workerCount
      rw [workerOffset_zero, workerOffset_last L 1 (by omega), hrec]
      simp
    have hmap : (List.range N).flatMap (fun r => symcoocWorker recs L N r)
        = ((List.range N).map (fun r => workerRecords recs L N r)).flatMap
            symcoocRecords := by
      rw [List.flatMap_map]
      rfl
    rw [hmap, symcoocRecords_flatten]
    have hflat : ((List.range N).map (fun r => workerRecords recs L N r)).flatten
        = recs := by
      rw [← List.flatMap_def]
      exact hcover
    rw [hflat]
    unfold symcoocWorker
    rw [hsingle]

/-- Witness for C4: a 30-byte file (two whole 12-byte records and six trailing
bytes) split across two workers. -/
theorem symcooc_partition_equivalence_witness :
    (∀ r s, r < s →
        workerOffset 30 2 r + workerCount 30 2 r ≤ workerOffset 30 2 s) ∧
    (List.range 2).flatMap
        (fun r => workerRecords [⟨0, 1, 2⟩, ⟨0, 2, 3⟩] 30 2 r) =
      [⟨0, 1, 2⟩, ⟨0, 2, 3⟩] ∧
    (((List.range 2).flatMap
        (fun r => symcoocWorker [⟨0, 1, 2⟩, ⟨0, 2, 3⟩] 30 2 r) :
        List CoocRec) : Multiset CoocRec) =
      ((symcoocWorker [⟨0, 1, 2⟩, ⟨0, 2, 3⟩] 30 1 0 : List CoocRec) :
        Multiset CoocRec) :=
  symcooc_partition_equivalence [⟨0, 1, 2⟩, ⟨0, 2, 3⟩] 30 2 (by decide)
    (by decide) (by decide)

theorem splitcoocLoop_spec (unpack : List Nat → Nat × Nat × ℚ) (n : Nat) :
    ∀ bytes : List Nat,
      splitcoocLoop unpack n bytes =
        ((List.range n).map (fun k =>
            (unpack ((bytes.drop (NBYTES * k)).take NBYTES)).2.2),
         (List.range n).map (fun k =>
            (unpack ((bytes.drop (NBYTES * k)).take NBYTES)).1),
         (List.range n).map (fun k =>
            (unpack ((bytes.drop (NBYTES * k)).take NBYTES)).2.1),
         bytes.drop (NBYTES * n)) := by
  induction n with
  | zero =>
    intro bytes
    simp [splitcoocLoop]
  | succ n ih =>
    intro bytes
    have hdd : ∀ k : Nat, (bytes.drop NBYTES).drop (NBYTES * k)
        = bytes.drop (NBYTES * (k + 1)) := by
      intro k
      rw [List.drop_drop]
      congr 1
      ring
    simp only [splitcoocLoop, ih (bytes.drop NBYTES)]
    rw [List.range_succ_eq_map]
    simp only [List.map_cons, List.map_map, Nat.mul_zero, List.drop_zero,
      Prod.mk.injEq]
    refine ⟨?_, ?_, ?_, ?_⟩
    · congr 1
      apply List.map_congr_left
      intro k _
      simp only [Function.comp_apply, Nat.succ_eq_add_one]
      rw [hdd]
    · congr 1
      apply List.map_congr_left
      intro k _
      simp only [Function.comp_apply, Nat.succ_eq_add_one]
      rw [hdd]
    · congr 1
      apply List.map_congr_left
      intro k _
      simp only [Function.comp_apply, Nat.succ_eq_add_one]
      rw [hdd]
    · rw [hdd n]

/-- C10: reading `n` records with `splitcooc(f, n)` from a file with at least
`n` whole records remaining yields exactly `3n` values — first the `n` weights
in record order, then the `n` row indices, then the `n` column indices — and
consumes exactly `NBYTES * n = 12n` bytes of the file. -/
theorem splitcooc_yield_order (unpack : List Nat → Nat × Nat × ℚ)
    (bytes : List Nat) (n : Nat) (hlen : NBYTES * n ≤ bytes.length) :
    (splitcooc unpack bytes n).1 =
      (List.range n).map (fun k =>
          Sum.inl (unpack ((bytes.drop (NBYTES * k)).take NBYTES)).2.2) ++
        (List.range n).map (fun k =>
          Sum.inr (unpack ((bytes.drop (NBYTES * k)).take NBYTES)).1) ++
        (List.range n).map (fun k =>
          Sum.inr (unpack ((bytes.drop (NBYTES * k)).take NBYTES)).2.1) ∧
    (splitcooc unpack bytes n).1.length = 3 * n ∧
    (splitcooc unpack bytes n).2 = bytes.drop (NBYTES * n) ∧
    bytes.length - (splitcooc unpack bytes n).2.length = NBYTES * n := by
  have hloop := splitcoocLoop_spec unpack n bytes
  refine ⟨?_, ?_, ?_, ?_⟩
  · simp only [splitcooc, hloop, List.map_map]
    rfl
  · simp only [splitcooc, hloop, List.length_append, List.length_map,
      List.length_range]
    ring
  · simp only [splitcooc, hloop]
  · simp only [splitcooc, hloop, List.length_drop]
    omega

/-- Witness for C10 at a concrete 30-byte file read with `n = 2`: the generator
yields `3 * 2` values and leaves the file positioned `24` bytes further. -/
theorem splitcooc_yield_order_witness :
    (splitcooc (fun b => (b.headD 0, 1, 2)) (List.range 30) 2).1.length = 3 * 2 ∧
    (splitcooc (fun b => (b.headD 0, 1, 2)) (List.range 30) 2).2 =
      (List.range 30).drop (NBYTES * 2) :=
  ⟨(splitcooc_yield_order (fun b => (b.headD 0, 1, 2)) (List.range 30) 2
      (by decide)).2.1,
   (splitcooc_yield_order (fun b => (b.headD 0, 1, 2)) (List.range 30) 2
      (by decide)).2.2.1⟩

/-- C9: `_load_cooc_data` computes `logcooc` from the raw weights before any
transformation, and afterwards every stored weight equals
`powa (min 1 (weight/xmax))` — the GloVe transform `min(1, weight/xmax)^alpha`
— provided the power function fixes 1 (as the real power `x ** alpha` does). -/
theorem load_cooc_weighting (logf powa : ℚ → ℚ) (xmax : ℚ) (data : List ℚ)
    (hpow : powa 1 = 1) :
    (GloVe.load_weights logf powa xmax data).2 = data.map logf ∧
    (GloVe.load_weights logf powa xmax data).1 =
      data.map (fun w => powa (min 1 (w / xmax))) := by
  refine ⟨rfl, ?_⟩
  simp only [GloVe.load_weights, List.map_map]
  apply List.map_congr_left
  intro x _
  simp only [Function.comp_apply]
  by_cases h : x / xmax < 1
  · rw [if_pos h, min_eq_right h.le]
  · rw [if_neg h, min_eq_left (le_of_not_lt h), hpow]

/-- Witness for C9 with `logf = id`, `powa x = x*x`, `xmax = 2` on weights
`[1, 4]`: the log column is taken from the raw weights and the transformed
weights are `[(1/2)^2, 1]`. -/
theorem load_cooc_weighting_witness :
    (GloVe.load_weights (fun x => x) (fun x => x * x) 2 [1, 4]).2 =
      [(1 : ℚ), 4].map (fun x => x) ∧
    (GloVe.load_weights (fun x => x) (fun x => x * x) 2 [1, 4]).1 =
      [(1 : ℚ), 4].map (fun w => min 1 (w / 2) * min 1 (w / 2)) :=
  load_cooc_weighting (fun x => x) (fun x => x * x) 2 [1, 4] (by norm_num)

/-- C3 (code bug): two `SharedArrayManager` instances used one after the other
in the same process.  `_shared` is a class attribute that `__exit__` iterates
but never clears, so the second instance's exit calls `sa.delete` again on the
segment the first instance created and already deleted: the delete trace is
`[1, 1, 2]` and segment `1` is released twice, not exactly once. -/
theorem sharedArrayManager_double_release :
    SAM.twoManagerScenario.deletes = [1, 1, 2] ∧
    SAM.twoManagerScenario.deletes.count 1 = 2 := by
  decide

/-- C2 (code bug): `align_params` evaluated at a single 2x2 parameter array
raises `TypeError` (the loop body assigns into the tuple `param.shape`), so it
returns no aligned arrays at all. -/
theorem align_params_type_error :
    align_params [[[1, 2], [3, 4]]] ["a", "b"] ["b", "c"] true =
      Except.error "TypeError: tuple does not support item assignment" :=
  rfl

/-- C7 (code bug): one plain-variant record update at `i = j = 0` with
`eta = 1`, `weight = 1`, `logWeight = 0` and parameters `W = [[1]]`,
`C = [[1]]`, `b_w = [5]`, `b_c = [7]`.  Here `error = 13` and
`coef = 2*eta*weight*error = 26`; the code updates the vectors exactly as the
claim states (`C[0]` and `W[0]` both become `1 - 26*1 = -25`, each using the
other's pre-update value) but leaves `b_w = [5]` and `b_c = [7]` unchanged —
`wbi -= coef` rebinds a scalar copied out of the array — whereas the claim
requires `b_w[0] = 5 - 26` and `b_c[0] = 7 - 26`. -/
theorem glove_epoch_bias_frozen :
    (GloVe.epochStep 1 ⟨[[1]], [[1]], [5], [7]⟩ 0 0 1 0).1 =
      ⟨[[-25]], [[-25]], [5], [7]⟩ ∧
    (GloVe.epochStep 1 ⟨[[1]], [[1]], [5], [7]⟩ 0 0 1 0).1.wb ≠ [5 - 26] ∧
    (GloVe.epochStep 1 ⟨[[1]], [[1]], [5], [7]⟩ 0 0 1 0).1.cb ≠ [7 - 26] := by
  refine ⟨?_, ?_, ?_⟩ <;> norm_num [GloVe.epochStep, dotQ]

theorem applyPerm_getElem (p : List Nat) (l : List α)
    (hp : ∀ x ∈ p, x < l.length) :
    ∀ k : Nat, (applyPerm p l)[k]? = p[k]?.bind (fun m : Nat => l[m]?) := by
  induction p with
  | nil =>
    intro k
    simp [applyPerm]
  | cons a p ih =>
    intro k
    have ha : a < l.length := hp a (by simp)
    have hp' : ∀ x ∈ p, x < l.length := fun x hx => hp x (by simp [hx])
    have hcons : applyPerm (a :: p) l = l[a] :: applyPerm p l := by
      simp [applyPerm, List.filterMap_cons, List.getElem?_eq_getElem ha]
    cases k with
    | zero =>
      simp [hcons, List.getElem?_eq_getElem ha]
    | succ k =>
      simp [hcons, ih hp' k]

/-- C8: `_shuffle_cooc_data` reseeds the generator before each of the four
shuffles, so a single permutation `p` of `range n` (determined by the seed and
the common length `n`) is applied to `row`, `col`, `weights`, `logcooc` alike;
consequently every post-shuffle position `k` holds the four components of one
original tuple, at a common pre-shuffle position `m`.  (Reproducibility under
the same seed is definitional here: the embedding is a pure function of the
seed and the arrays.) -/
theorem shuffle_cooc_correspondence (gen : Nat → Nat → List Nat) (seed n : Nat)
    (sh : CoocShard) (hperm : (gen seed n).Perm (List.range n))
    (h1 : sh.row.length = n) (h2 : sh.col.length = n)
    (h3 : sh.weights.length = n) (h4 : sh.logcooc.length = n) :
    (∃ p : List Nat, p.Perm (List.range n) ∧
        GloVe.shuffle_cooc_data gen seed sh =
          ⟨applyPerm p sh.row, applyPerm p sh.col,
           applyPerm p sh.weights, applyPerm p sh.logcooc⟩) ∧
    (∀ k, k < n → ∃ m, m < n ∧
        (GloVe.shuffle_cooc_data gen seed sh).row[k]? = sh.row[m]? ∧
        (GloVe.shuffle_cooc_data gen seed sh).col[k]? = sh.col[m]? ∧
        (GloVe.shuffle_cooc_data gen seed sh).weights[k]? = sh.weights[m]? ∧
        (GloVe.shuffle_cooc_data gen seed sh).logcooc[k]? = sh.logcooc[m]?) := by
  have hunf : GloVe.shuffle_cooc_data gen seed sh =
      ⟨applyPerm (gen seed n) sh.row, applyPerm (gen seed n) sh.col,
       applyPerm (gen seed n) sh.weights, applyPerm (gen seed n) sh.logcooc⟩ := by
    rw [GloVe.shuffle_cooc_data, h1, h2, h3, h4]
  have hmem : ∀ x ∈ gen seed n, x < n := by
    intro x hx
    exact List.mem_range.mp (hperm.mem_iff.mp hx)
  refine ⟨⟨gen seed n, hperm, hunf⟩, ?_⟩
  intro k hk
  have hplen : (gen seed n).length = n := by
    rw [hperm.length_eq, List.length_range]
  have hklt : k < (gen seed n).length := by omega
  have hpk : (gen seed n)[k]? = some ((gen seed n)[k]) :=
    List.getElem?_eq_getElem hklt
  refine ⟨(gen seed n)[k], hmem _ (List.getElem_mem hklt), ?_, ?_, ?_, ?_⟩
  · rw [hunf]
    rw [applyPerm_getElem (gen seed n) sh.row (fun x hx => h1 ▸ hmem x hx) k, hpk]
    rfl
  · rw [hunf]
    rw [applyPerm_getElem (gen seed n) sh.col (fun x hx => h2 ▸ hmem x hx) k, hpk]
    rfl
  · rw [hunf]
    rw [applyPerm_getElem (gen seed n) sh.weights (fun x hx => h3 ▸ hmem x hx) k, hpk]
    rfl
  · rw [hunf]
    rw [applyPerm_getElem (gen seed n) sh.logcooc (fun x hx => h4 ▸ hmem x hx) k, hpk]
    rfl

/-- Witness for C8: the reversal permutation as the generator, seed 0, on the
four length-2 arrays `row = [10,20]`, `col = [30,40]`, `weights = [1,2]`,
`logcooc = [3,4]`. -/
theorem shuffle_cooc_correspondence_witness :
    (∃ p : List Nat, p.Perm (List.range 2) ∧
        GloVe.shuffle_cooc_data (fun _ len => (List.range len).reverse) 0
            ⟨[10, 20], [30, 40], [1, 2], [3, 4]⟩ =
          ⟨applyPerm p [10, 20], applyPerm p [30, 40],
           applyPerm p ([1, 2] : List ℚ), applyPerm p ([3, 4] : List ℚ)⟩) ∧
    (∀ k, k < 2 → ∃ m, m < 2 ∧
        (GloVe.shuffle_cooc_data (fun _ len => (List.range len).reverse) 0
            ⟨[10, 20], [30, 40], [1, 2], [3, 4]⟩).row[k]? = [10, 20][m]? ∧
        (GloVe.shuffle_cooc_data (fun _ len => (List.range len).reverse) 0
            ⟨[10, 20], [30, 40], [1, 2], [3, 4]⟩).col[k]? = [30, 40][m]? ∧
        (GloVe.shuffle_cooc_data (fun _ len => (List.range len).reverse) 0
            ⟨[10, 20], [30, 40], [1, 2], [3, 4]⟩).weights[k]? =
          ([1, 2] : List ℚ)[m]? ∧
        (GloVe.shuffle_cooc_data (fun _ len => (List.range len).reverse) 0
            ⟨[10, 20], [30, 40], [1, 2], [3, 4]⟩).logcooc[k]? =
          ([3, 4] : List ℚ)[m]?) :=
  shuffle_cooc_correspondence (fun _ len => (List.range len).reverse) 0 2
    ⟨[10, 20], [30, 40], [1, 2], [3, 4]⟩ (by decide) rfl rfl rfl rfl

theorem zip_map_sum (f : α → β → ℚ) (da : α) (db : β) :
    ∀ (a : List α) (b : List β), a.length = b.length →
      ((a.zip b).map (fun p => f p.1 p.2)).sum =
        ((List.range a.length).map (fun w => f (a.getD w da) (b.getD w db))).sum := by
  intro a
  induction a with
  | nil =>
    intro b hb
    simp
  | cons x a ih =>
    intro b hb
    cases b with
    | nil => simp at hb
    | cons y b =>
      simp only [List.zip_cons_cons, List.map_cons, List.sum_cons, List.length_cons]
      rw [List.range_succ_eq_map]
      simp only [List.map_cons, List.map_map, List.sum_cons, List.getD_cons_zero]
      have hs : ((List.range a.length).map
            ((fun w => f ((x :: a).getD w da) ((y :: b).getD w db)) ∘ Nat.succ)).sum
          = ((List.range a.length).map (fun w => f (a.getD w da) (b.getD w db))).sum :=
        rfl
      rw [hs, ih b (by simpa using hb)]

/-- C1 (amended): the value of `RegularizedGloVe.loss()` observed by any worker
equals the base weighted-least-squares loss plus the penalty
`reg/V * Σ_w ||embedding(w) - reference(w)||²` — with no per-word division by
the cooccurrence degree — and is the same for every rank. -/
theorem regularized_loss_value (rank : Nat) (wv cv : List (List ℚ))
    (wb cb : List ℚ) (src : List (List ℚ)) (reg : ℚ) (shards : List CoocShard)
    (hw : wv.length = src.length) (hc : cv.length = src.length) :
    RegularizedGloVe.lossAt rank wv cv wb cb src reg shards =
      GloVe.loss wv cv wb cb shards +
        reg / (src.length : ℚ) *
          ((List.range src.length).map (fun w =>
            rowSqDist ((GloVe.embeddings wv cv).getD w []) (src.getD w []))).sum := by
  have hlen : (GloVe.embeddings wv cv).length = src.length := by
    simp [GloVe.embeddings, List.length_zip, hw, hc]
  have hfrob : frobSq (GloVe.embeddings wv cv) src =
      ((List.range src.length).map (fun w =>
        rowSqDist ((GloVe.embeddings wv cv).getD w []) (src.getD w []))).sum := by
    rw [frobSq, zip_map_sum rowSqDist ([] : List ℚ) ([] : List ℚ)
      (GloVe.embeddings wv cv) src (by rw [hlen]), hlen]
  simp only [RegularizedGloVe.lossAt, ite_self, RegularizedGloVe.rloss, hfrob]

/-- Witness for C1's amended statement at rank 1, a one-word vocabulary and a
single one-record shard. -/
theorem regularized_loss_value_witness :
    RegularizedGloVe.lossAt 1 [[1]] [[1]] [0] [0] [[0]] 1
        [⟨[0], [0], [1], [0]⟩] =
      GloVe.loss [[1]] [[1]] [0] [0] [⟨[0], [0], [1], [0]⟩] +
        1 / ((([[0]] : List (List ℚ)).length : ℚ)) *
          ((List.range ([[0]] : List (List ℚ)).length).map (fun w =>
            rowSqDist ((GloVe.embeddings [[1]] [[1]]).getD w [])
              (([[0]] : List (List ℚ)).getD w []))).sum :=
  regularized_loss_value 1 [[1]] [[1]] [0] [0] [[0]] 1
    [⟨[0], [0], [1], [0]⟩] rfl rfl

/-- C1 (counterexample to the stated formula): with one worker, one record
`(0, 0, weight 1, logWeight 0)`, parameters `W = C = [[1]]`, zero biases,
reference `[[0]]` and `reg = 1`, the degree of word 0 is 2, so the claimed
value is `1 + (1/1) * 1²/2 = 3/2`, but `loss()` returns `1 + (1/1) * 1² = 2`:
the code's penalty does not divide by `degree(w)`. -/
theorem regularized_loss_degree_counterexample :
    RegularizedGloVe.lossAt 0 [[1]] [[1]] [0] [0] [[0]] 1
        [⟨[0], [0], [1], [0]⟩] ≠
      GloVe.loss [[1]] [[1]] [0] [0] [⟨[0], [0], [1], [0]⟩] +
        claimRegPenalty [[1]] [[1]] [[0]] 1 [⟨[0], [0], [1], [0]⟩] := by
  norm_num [RegularizedGloVe.lossAt, RegularizedGloVe.rloss, GloVe.loss,
    GloVe.lossLocal, GloVe.predict, GloVe.embeddings, frobSq, rowSqDist, dotQ,
    claimRegPenalty, RegularizedGloVe.word_cooc_counts, CoocShard.ncooc,
    List.count_cons, List.range_succ, List.range_zero, List.getElem?_cons_zero,
    List.getElem?_nil,
    Option.getD_some, List.zip_cons_cons, List.zip_nil_right]

theorem recipDist_length (W : Nat) : (recipDist W).length = W := by
  rw [recipDist, List.length_map, List.length_reverse, List.length_range']

theorem recipDist_drop (W m i : Nat) (hm : m ≤ W) (hmi : m ≤ i)
    (him : i - W + m = i) :
    (recipDist W).drop (W - m) =
      (List.range' (i - W) m).map (fun j => (1 : ℚ) / ((i - j : Nat) : ℚ)) := by
  apply List.ext_getElem
  · rw [List.length_drop, recipDist_length, List.length_map, List.length_range']
    omega
  · intro u h1 h2
    rw [List.length_drop, recipDist_length] at h1
    simp only [recipDist, List.getElem_drop, List.getElem_map,
      List.getElem_reverse, List.length_reverse, List.length_range',
      List.getElem_range', List.length_map, one_mul]
    have harg : 1 + (W - 1 - (W - m + u)) = i - (i - W + u) := by omega
    rw [harg]

theorem take_drop_as_map (indices : List Nat) (V s m : Nat)
    (h : s + m ≤ indices.length) :
    (indices.drop s).take m =
      (List.range' s m).map (fun j => indices.getD j V) := by
  apply List.ext_getElem
  · rw [List.length_take, List.length_drop, List.length_map, List.length_range']
    omega
  · intro u h1 h2
    rw [List.length_take, List.length_drop] at h1
    simp only [List.getElem_take, List.getElem_drop, List.getElem_map,
      List.getElem_range', one_mul]
    rw [List.getD_eq_getElem?_getD, List.getElem?_eq_getElem (by omega)]
    rfl

theorem doc2coocEmit_window (indices : List Nat) (W V i : Nat)
    (hi : i < indices.length) :
    doc2coocEmit indices (recipDist W) V (i - W) i =
      if indices.getD i V ≠ V then
        (List.range' (i - W) (min i W)).filterMap (fun j =>
          if indices.getD j V ≠ V then
            some (if indices.getD i V < indices.getD j V then
                    (indices.getD i V, indices.getD j V,
                      (1 : ℚ) / ((i - j : Nat) : ℚ))
                  else (indices.getD j V, indices.getD i V,
                    (1 : ℚ) / ((i - j : Nat) : ℚ)))
          else none)
      else [] := by
  rw [doc2coocEmit]
  by_cases hIV : indices.getD i V ≠ V
  case neg =>
    rw [if_neg hIV, if_neg hIV]
  rw [if_pos hIV, if_pos hIV]
  have hm : min i W ≤ W := Nat.min_le_right i W
  have hmi : min i W ≤ i := Nat.min_le_left i W
  have htake : i - (i - W) = min i W := by omega
  by_cases hm0 : min i W = 0
  · rw [htake, hm0]
    simp
  · have hslice : ((i - W : Nat) : Int) - (i : Int) = -((min i W : Nat) : Int) := by
      omega
    rw [hslice, pySliceFrom, if_pos (by omega : -((min i W : Nat) : Int) < 0)]
    rw [show ((((recipDist W).length : Nat) : Int) + -((min i W : Nat) : Int)).toNat
        = W - min i W from by rw [recipDist_length]; omega]
    rw [htake, recipDist_drop W (min i W) i hm hmi (by omega),
      take_drop_as_map indices V (i - W) (min i W) (by omega),
      List.zip_map', List.filterMap_map]
    rfl

theorem doc2cooc_fold (indices : List Nat) (recip_dist : List ℚ) (W V : Nat) :
    ∀ k : Nat,
      (List.range k).foldl (fun st i =>
          (st.1 + (if W ≤ i then 1 else 0),
           st.2 ++ doc2coocEmit indices recip_dist V st.1 i))
        ((0 : Nat), ([] : List (Nat × Nat × ℚ))) =
      (k - W,
       (List.range k).flatMap (fun i =>
         doc2coocEmit indices recip_dist V (i - W) i)) := by
  intro k
  induction k with
  | zero => simp
  | succ k ih =>
    rw [List.range_succ, List.foldl_append, ih]
    simp only [List.foldl_cons, List.foldl_nil, List.flatMap_append,
      List.flatMap_cons, List.flatMap_nil, List.append_nil]
    have h1 : (k - W) + (if W ≤ k then 1 else 0) = k + 1 - W := by
      by_cases h : W ≤ k
      · rw [if_pos h]; omega
      · rw [if_neg h]; omega
    rw [h1]

/-- C6: `doc2cooc` pairs each non-sentinel token only with the non-sentinel
tokens among the `window_size` positions immediately preceding it, weights each
pair by the reciprocal of the position distance, and emits the pair canonically
as `(min index, max index)` (diagonal pairs included); in particular, for the
corpus "a b c" (indices `[0, 1, 2]`) with window size 2 and `V = 3`, the
tallied weighted pairs are `(0,1) = 1`, `(1,2) = 1`, `(0,2) = 1/2`. -/
theorem doc2cooc_window_correct :
    (∀ (indices : List Nat) (window_size V : Nat),
        doc2cooc indices (recipDist window_size) window_size V =
          doc2coocClaim indices window_size V) ∧
    tallyWeight (doc2cooc [0, 1, 2] (recipDist 2) 2 3) 0 1 = 1 ∧
    tallyWeight (doc2cooc [0, 1, 2] (recipDist 2) 2 3) 1 2 = 1 ∧
    tallyWeight (doc2cooc [0, 1, 2] (recipDist 2) 2 3) 0 2 = 1 / 2 := by
  have hmain : ∀ (indices : List Nat) (W V : Nat),
      doc2cooc indices (recipDist W) W V = doc2coocClaim indices W V := by
    intro indices W V
    rw [doc2cooc, doc2cooc_fold indices (recipDist W) W V indices.length,
      doc2coocClaim]
    rw [List.flatMap_def, List.flatMap_def]
    dsimp only
    congr 1
    apply List.map_congr_left
    intro i hi
    exact doc2coocEmit_window indices W V i (List.mem_range.mp hi)
  refine ⟨hmain, ?_, ?_, ?_⟩ <;>
    rw [hmain [0, 1, 2] 2 3] <;>
    norm_num [doc2coocClaim, tallyWeight, List.range_succ, List.range'_succ,
      List.filter_cons, List.filterMap_cons]
